import Mathlib

/-!
# open-sesame — verification of the hint engine and lifecycle state machine

Shallow embedding of the core of the `open-sesame` keyboard-driven window
switcher (Rust), translated from:

* `src/core/hint.rs`    — `HintSequence`, `normalize_input`, `WindowHint`,
  `HintAssignment::assign`, `auto_generate_key`
* `src/core/matcher.rs` — `MatchResult`, `HintMatcher::match_input`
* `src/core/window.rs`  — `Window`, `AppId::last_segment`
* `src/util/timeout.rs` — `TimeoutTracker`
* `src/app/state.rs`    — `AppState`, `Event`, `Action`, `AppState::handle_event`

Modelling conventions:

* Rust `String`/`&str` values are modelled as `List Char`.
* Rust `char::to_ascii_lowercase` coincides with Lean's `Char.toLower`
  (ASCII-only lowering); Rust's Unicode `str::to_lowercase` is modelled as
  `List.map Char.toLower`.  The two agree exactly on ASCII strings and can
  differ outside ASCII (e.g. Rust lowercases U+212A KELVIN SIGN to 'k'),
  so theorems whose truth in the program depends on the lowercasing of
  arbitrary strings carry an explicit ASCII hypothesis.
* `std::time::Instant` is modelled as a millisecond counter `Nat`.  Every
  `Instant::now()` call inside a single `handle_event` invocation is modelled
  as the same instant `now`, passed as an explicit argument.  `Instant`
  subtraction is monotone-saturating exactly like `Nat` subtraction.
* Machine integers (`u32`, `u64`, `usize`) are modelled as `Nat`; none of the
  modelled operations can overflow on the values reachable here (counts are
  bounded by list lengths, times are monotone counters).
-/

namespace OpenSesame

/-! ## HintSequence (src/core/hint.rs) -/

/-- A hint sequence (e.g. "g", "gg", "ggg"): base character plus repetition
count.  Mirrors `struct HintSequence { base: char, count: usize }`. -/
structure HintSequence where
  base : Char
  count : Nat
deriving DecidableEq

/-- `HintSequence::new`: lowercases the base and clamps the count to at
least 1. -/
def HintSequence.new (base : Char) (count : Nat) : HintSequence :=
  { base := base.toLower, count := max count 1 }

/-- `HintSequence::as_string`: the base repeated `count` times. -/
def HintSequence.as_string (h : HintSequence) : List Char :=
  List.replicate h.count h.base

/-- `HintSequence::from_repeated`: lowercase the string, require a first
character that is ASCII-alphabetic and that every character equals it.
Rust takes `count = s.len()` (UTF-8 bytes); on success all characters are
ASCII, where byte length and character count coincide, so the character
count used here is faithful.  The initial `to_lowercase` is the ASCII
per-character model (see the module header): exact for ASCII inputs,
while Rust's Unicode lowering additionally maps e.g. U+212A to 'k' —
claims quantifying over arbitrary inputs therefore restrict to ASCII. -/
def HintSequence.from_repeated (s : List Char) : Option HintSequence :=
  let s := s.map Char.toLower
  match s with
  | [] => none
  | base :: _ =>
    if base.isAlpha then
      if s.all (fun c => c == base) then
        some (HintSequence.new base s.length)
      else
        none
    else
      none

/-! ## normalize_input (src/core/hint.rs) -/

/-- The backward scan of `normalize_input`:
`while letter_end > 0 && chars[letter_end - 1].is_ascii_digit() { letter_end -= 1 }`.
`digit_run_start chars e` is the final value of `letter_end` when started
at `e`. -/
def digit_run_start (chars : List Char) : Nat → Nat
  | 0 => 0
  | e + 1 => if (chars.getD e ' ').isDigit then digit_run_start chars e else e + 1

/-- Rust `str::parse::<usize>` restricted to its use in `normalize_input`,
where the argument is a nonempty all-digit suffix.  (On such inputs Rust's
parser only differs by failing on `usize` overflow; an overflowed value
would exceed the `num <= 26` bound anyway, producing the same final
result, so `Nat` arithmetic is faithful here.) -/
def parse_nat (s : List Char) : Option Nat :=
  if s ≠ [] ∧ s.all Char.isDigit then
    some (s.foldl (fun acc c => acc * 10 + (c.toNat - 48)) 0)
  else
    none

/-- The body of `normalize_input` after the initial `to_lowercase`. -/
def norm_core (input : List Char) : List Char :=
  if 2 ≤ input.length then
    if (input.getD (input.length - 1) ' ').isDigit then
      let letterEnd := digit_run_start input (input.length - 1)
      if 0 < letterEnd then
        let letters := input.take letterEnd
        let numStr := input.drop letterEnd
        match parse_nat numStr, letters.head? with
        | some num, some base =>
          if 0 < num ∧ num ≤ 26 ∧ letters.all (fun c => c == base) then
            List.replicate num base
          else
            input
        | _, _ => input
      else
        input
    else
      input
  else
    input

/-- `normalize_input` (src/core/hint.rs): lowercase, then expand a
`letter‑run ++ digit‑run` pattern such as "g2" into "gg" when the parsed
number is in `1..=26`. -/
def normalize_input (input : List Char) : List Char :=
  norm_core (input.map Char.toLower)

/-- `HintSequence::matches_input`:
`self.as_string().starts_with(&normalize_input(input))` — i.e. the
normalized input is a prefix of this hint's canonical string. -/
def HintSequence.matches_input (h : HintSequence) (input : List Char) : Bool :=
  let normalized := normalize_input input
  normalized.isPrefixOf h.as_string

/-- `HintSequence::equals_input`: canonical string equals the normalized
input. -/
def HintSequence.equals_input (h : HintSequence) (input : List Char) : Bool :=
  h.as_string == normalize_input input

/-! ## WindowHint and matcher (src/core/hint.rs, src/core/matcher.rs) -/

/-- `struct WindowHint` — a hint assigned to a window; `index` is the
position in the original window list. -/
structure WindowHint where
  hint : HintSequence
  window_id : List Char
  app_id : List Char
  title : List Char
  index : Nat
deriving DecidableEq

/-- `enum MatchResult` from src/core/matcher.rs.
`noMatch` is Rust `MatchResult::None`, `ambiguous` is Rust
`MatchResult::Partial(indices)`, `exact` is Rust `MatchResult::Exact`. -/
inductive MatchResult where
  | noMatch
  | ambiguous (indices : List Nat)
  | exact (index : Nat) (window_id : List Char)
deriving DecidableEq

/-- The candidate list collected inside `HintMatcher::match_input`
(`let matches: Vec<_> = self.hints.iter().filter(|h| h.hint.matches_input(input)).collect()`). -/
def matched_hints (hints : List WindowHint) (input : List Char) : List WindowHint :=
  hints.filter (fun h => h.hint.matches_input input)

/-- `HintMatcher::match_input`. -/
def match_input (hints : List WindowHint) (input : List Char) : MatchResult :=
  if input = [] then
    MatchResult.ambiguous (hints.map (fun h => h.index))
  else
    match matched_hints hints input with
    | [] => MatchResult.noMatch
    | [m] => MatchResult.exact m.index m.window_id
    | ms =>
      match ms.find? (fun h => h.hint.equals_input input) with
      | some e => MatchResult.exact e.index e.window_id
      | none => MatchResult.ambiguous (ms.map (fun h => h.index))

/-! ## Window and hint assignment (src/core/window.rs, src/core/hint.rs) -/

/-- `struct Window` from src/core/window.rs (`WindowId` and `AppId`
newtypes are inlined as their underlying strings). -/
structure Window where
  id : List Char
  app_id : List Char
  title : List Char
  is_focused : Bool
deriving DecidableEq

/-- Rust `str::split('.')` (always yields at least one segment). -/
def split_dot : List Char → List (List Char)
  | [] => [[]]
  | c :: cs =>
    if c = '.' then
      [] :: split_dot cs
    else
      match split_dot cs with
      | [] => [[c]]
      | seg :: rest => (c :: seg) :: rest

/-- `AppId::last_segment`: `self.0.split('.').next_back().unwrap_or(&self.0)`. -/
def last_segment (s : List Char) : List Char :=
  (split_dot s).getLastD s

/-- `auto_generate_key` (src/core/hint.rs): first ASCII-alphabetic
character of the lowercased last dot-segment of the app id. -/
def auto_generate_key (app_id : List Char) : Option Char :=
  let name := (last_segment app_id).map Char.toLower
  name.find? Char.isAlpha

/-- The base letter chosen for a window inside `HintAssignment::assign`:
`key_for_app(&window.app_id).or_else(|| auto_generate_key(&window.app_id)).unwrap_or('x')`. -/
def base_for (key_for_app : List Char → Option Char) (w : Window) : Char :=
  ((key_for_app w.app_id).or (auto_generate_key w.app_id)).getD 'x'

/-- One step of the grouping loop in `HintAssignment::assign`
(`by_base.entry(base).or_default().push((i, window))`), realized on an
association list: append the entry to the existing group for `b`, or add a
new group at the end. -/
def add_to_group (groups : List (Char × List (Nat × Window))) (b : Char)
    (e : Nat × Window) : List (Char × List (Nat × Window)) :=
  match groups with
  | [] => [(b, [e])]
  | (c, l) :: rest =>
    if c = b then (c, l ++ [e]) :: rest
    else (c, l) :: add_to_group rest b e

/-- The `by_base: HashMap<char, Vec<(usize, &Window)>>` built by
`HintAssignment::assign`, realized as an insertion-ordered association
list.  Rust's `HashMap` iterates in an unspecified order, but the final
`hints.sort_by_key(|a| a.index)` orders the result by the pairwise-distinct
`index` field, so the assignment result does not depend on the grouping
order; a deterministic insertion order is therefore a faithful model. -/
def group_by_base (windows : List Window) (key_for_app : List Char → Option Char) :
    List (Char × List (Nat × Window)) :=
  windows.enum.foldl (fun gs iw => add_to_group gs (base_for key_for_app iw.2) iw) []

/-- The entry list of the first group with key `b` (empty if absent).
`add_to_group` always extends the first matching group, so this lookup
describes the group the next entry with base `b` would join. -/
def group_of (gs : List (Char × List (Nat × Window))) (b : Char) : List (Nat × Window) :=
  ((gs.find? (fun g => g.1 == b)).map Prod.snd).getD []

/-- The `WindowHint` pushed for the `k`-th (0-based) member of the group
with base `b`: `HintSequence::new(*base, window_idx + 1)` plus the window's
data and original index. -/
def hint_of_entry (b : Char) (k : Nat) (e : Nat × Window) : WindowHint :=
  { hint := HintSequence.new b (k + 1)
    window_id := e.2.id
    app_id := e.2.app_id
    title := e.2.title
    index := e.1 }

/-- The unsorted hint list produced by the second loop of
`HintAssignment::assign` (iterate groups, enumerate within each group). -/
def grouped_hints (gs : List (Char × List (Nat × Window))) : List WindowHint :=
  gs.flatMap (fun g => g.2.enum.map (fun ke => hint_of_entry g.1 ke.1 ke.2))

/-- The sort key of `hints.sort_by_key(|a| a.index)`. -/
def index_le (a b : WindowHint) : Prop := a.index ≤ b.index

/-- Strict version of [`index_le`]; used to state that an index-sorted
list with pairwise-distinct indices is rigid. -/
def index_lt (a b : WindowHint) : Prop := a.index < b.index

instance : DecidableRel index_le := fun a b => Nat.decLe a.index b.index

instance : DecidableRel index_lt := fun a b => Nat.decLt a.index b.index

instance : IsTotal WindowHint index_le := ⟨fun a b => Nat.le_total a.index b.index⟩

instance : IsTrans WindowHint index_le := ⟨fun _ _ _ h1 h2 => Nat.le_trans h1 h2⟩

instance : IsTrans WindowHint index_lt := ⟨fun _ _ _ h1 h2 => Nat.lt_trans h1 h2⟩

instance : IsAntisymm WindowHint index_lt :=
  ⟨fun _ _ h1 h2 => absurd (Nat.lt_trans h1 h2) (Nat.lt_irrefl _)⟩

/-- `HintAssignment::assign`: group windows by base letter, assign repeated
letters within each group, then `hints.sort_by_key(|a| a.index)` (a stable
sort; the `index` keys are pairwise distinct, so any correct sort yields
the same list). -/
def assign (windows : List Window) (key_for_app : List Char → Option Char) :
    List WindowHint :=
  List.insertionSort index_le (grouped_hints (group_by_base windows key_for_app))

/-- The hint list described by the specification's words for
`HintAssignment::assign` (spec §4.1, claim C3): one hint per window in
original order, the `i`-th carrying `index = i`, base letter chosen by
`base_for`, and count `n` when the window is the `n`-th (1-indexed) window
with its base letter in original order. -/
def direct_assign (windows : List Window) (key_for_app : List Char → Option Char) :
    List WindowHint :=
  windows.enum.map (fun iw =>
    { hint := HintSequence.new (base_for key_for_app iw.2)
        (((windows.take iw.1).countP
            (fun w => base_for key_for_app w == base_for key_for_app iw.2)) + 1)
      window_id := iw.2.id
      app_id := iw.2.app_id
      title := iw.2.title
      index := iw.1 })

/-! ## TimeoutTracker (src/util/timeout.rs) -/

/-- `struct TimeoutTracker { started_at: Option<Instant>, duration: Duration }`,
with instants and durations in milliseconds. -/
structure TimeoutTracker where
  started_at : Option Nat
  duration : Nat
deriving DecidableEq

/-- `TimeoutTracker::new(duration_ms)`. -/
def TimeoutTracker.new (duration_ms : Nat) : TimeoutTracker :=
  { started_at := none, duration := duration_ms }

/-- `TimeoutTracker::start`, with `Instant::now()` passed explicitly. -/
def TimeoutTracker.startAt (t : TimeoutTracker) (now : Nat) : TimeoutTracker :=
  { started_at := some now, duration := t.duration }

/-- `TimeoutTracker::has_elapsed`:
`self.started_at.map(|start| start.elapsed() >= self.duration).unwrap_or(false)`. -/
def TimeoutTracker.has_elapsed (t : TimeoutTracker) (now : Nat) : Bool :=
  match t.started_at with
  | some s => t.duration ≤ now - s
  | none => false

/-! ## Application state machine (src/app/state.rs) -/

/-- `enum ActivationResult`. -/
inductive ActivationResult where
  | window (index : Nat)
  | quickSwitch
  | launch (key : List Char)
  | cancelled
deriving DecidableEq

/-- `enum AppState`. -/
inductive AppState where
  | borderOnly (start_time : Nat) (frame_count : Nat)
  | fullOverlay (selected_hint_index : Nat) (input : List Char)
  | pendingActivation (hint_index : Nat) (input : List Char) (timeout : TimeoutTracker)
  | exiting (result : ActivationResult)
deriving DecidableEq

/-- `AppState::is_exiting`. -/
def AppState.is_exiting : AppState → Bool
  | .exiting _ => true
  | _ => false

/-- `enum Event`.  A keysym is its raw `u32` code. -/
inductive Event where
  | keyPress (keysym : Nat) (shift : Bool)
  | altReleased
  | tick
  | frameCallback
  | cycleForward
  | cycleBackward
  | configure (width : Nat) (height : Nat)
deriving DecidableEq

/-- `enum Action`. -/
inductive Action where
  | scheduleRedraw
  | exit
deriving DecidableEq

/-- `struct Transition { new_state, actions }`. -/
structure Transition where
  new_state : AppState
  actions : List Action
deriving DecidableEq

/-- The `Config` fields read by the state machine: the three delays (ms)
and `launch_config(key).is_some()` (from src/config/schema.rs, where
`launch_config` looks the key string up in the `keys` table). -/
structure Settings where
  overlay_delay : Nat
  activation_delay : Nat
  quick_switch_threshold : Nat

/-- The configuration interface used by `AppState::handle_event`. -/
structure Config where
  settings : Settings
  has_launch_config : List Char → Bool

/-- X11/xkbcommon keysym codes used by the state machine
(`smithay_client_toolkit::seat::keyboard::Keysym` constants). -/
def keysymTab : Nat := 0xff09

def keysymISOLeftTab : Nat := 0xfe20

def keysymEscape : Nat := 0xff1b

def keysymReturn : Nat := 0xff0d

def keysymKPEnter : Nat := 0xff8d

def keysymBackSpace : Nat := 0xff08

def keysymDown : Nat := 0xff54

def keysymKPDown : Nat := 0xff99

def keysymUp : Nat := 0xff52

def keysymKPUp : Nat := 0xff97

/-- `is_tab` (src/app/state.rs): `Tab`, `ISO_Left_Tab`, plus the two raw
fallback codes 0xff09 and 0xfe20 (which coincide with the former two). -/
def is_tab (keysym : Nat) : Bool :=
  keysym == keysymTab || keysym == keysymISOLeftTab ||
    keysym == 0xff09 || keysym == 0xfe20

/-- `cycle_index` (src/app/state.rs): wraps modulo `len`, 0 for `len == 0`. -/
def cycle_index (current len : Nat) (forward : Bool) : Nat :=
  if len = 0 then 0
  else if forward then (current + 1) % len
  else if current = 0 then len - 1
  else current - 1

/-- `keysym_to_char` (src/app/state.rs): ASCII printable range 0x20–0x7e. -/
def keysym_to_char (keysym : Nat) : Option Char :=
  if 0x20 ≤ keysym ∧ keysym ≤ 0x7e then some (Char.ofNat keysym) else none

/-- The index the overlay pre-selects: position of `previous_window_id`
in the hint list, defaulting to 0
(`previous_window_id.and_then(|prev| hints.iter().position(..)).unwrap_or(0)`). -/
def previous_index (hints : List WindowHint) (previous_window_id : Option (List Char)) : Nat :=
  (previous_window_id.bind (fun prev => hints.findIdx? (fun h => h.window_id == prev))).getD 0

/-- `AppState::handle_event` (src/app/state.rs), with `Instant::now()`
modelled by the explicit argument `now`. -/
def handle_event (s : AppState) (event : Event) (config : Config)
    (hints : List WindowHint) (previous_window_id : Option (List Char))
    (now : Nat) : Transition :=
  match s, event with
  | .borderOnly start_time frame_count, .frameCallback =>
    { new_state := .borderOnly start_time (frame_count + 1), actions := [] }
  | .borderOnly start_time frame_count, .tick =>
    let elapsed := now - start_time
    if config.settings.overlay_delay ≤ elapsed ∧ 2 ≤ frame_count then
      { new_state := .fullOverlay (previous_index hints previous_window_id) []
        actions := [.scheduleRedraw] }
    else
      { new_state := .borderOnly start_time frame_count, actions := [] }
  | .borderOnly start_time _, .altReleased =>
    let elapsed := now - start_time
    let result :=
      if elapsed < config.settings.quick_switch_threshold then
        match previous_window_id with
        | some prev =>
          match hints.findIdx? (fun h => h.window_id == prev) with
          | some idx => ActivationResult.window idx
          | none => ActivationResult.window 0
        | none => ActivationResult.quickSwitch
      else
        ActivationResult.window 0
    { new_state := .exiting result, actions := [.exit] }
  | .borderOnly _ _, .keyPress keysym shift =>
    if is_tab keysym then
      let idx := if shift then hints.length - 1 else min 1 (hints.length - 1)
      { new_state := .fullOverlay idx [], actions := [.scheduleRedraw] }
    else if keysym == keysymEscape then
      { new_state := .exiting .cancelled, actions := [.exit] }
    else
      match keysym_to_char keysym with
      | some c =>
        match match_input hints [c] with
        | .exact index _ =>
          { new_state := .pendingActivation index [c]
              ((TimeoutTracker.new config.settings.activation_delay).startAt now)
            actions := [.scheduleRedraw] }
        | .ambiguous _ =>
          { new_state := .fullOverlay 0 [c], actions := [.scheduleRedraw] }
        | .noMatch =>
          if config.has_launch_config [c] then
            { new_state := .exiting (.launch [c]), actions := [.exit] }
          else
            { new_state := .fullOverlay 0 [], actions := [.scheduleRedraw] }
      | none =>
        { new_state := .fullOverlay 0 [], actions := [.scheduleRedraw] }
  | .borderOnly _ _, .cycleForward =>
    { new_state := .fullOverlay (min 1 (hints.length - 1)) []
      actions := [.scheduleRedraw] }
  | .borderOnly _ _, .cycleBackward =>
    { new_state := .fullOverlay (hints.length - 1) [], actions := [.scheduleRedraw] }
  | .fullOverlay selected input, .keyPress keysym shift =>
    if is_tab keysym then
      { new_state := .fullOverlay (cycle_index selected hints.length (!shift)) input
        actions := [.scheduleRedraw] }
    else if keysym == keysymDown || keysym == keysymKPDown then
      { new_state := .fullOverlay (cycle_index selected hints.length true) input
        actions := [.scheduleRedraw] }
    else if keysym == keysymUp || keysym == keysymKPUp then
      { new_state := .fullOverlay (cycle_index selected hints.length false) input
        actions := [.scheduleRedraw] }
    else if keysym == keysymReturn || keysym == keysymKPEnter then
      { new_state := .exiting (.window selected), actions := [.exit] }
    else if keysym == keysymEscape then
      { new_state := .exiting .cancelled, actions := [.exit] }
    else if keysym == keysymBackSpace then
      { new_state := .fullOverlay selected input.dropLast, actions := [.scheduleRedraw] }
    else
      match keysym_to_char keysym with
      | some c =>
        match match_input hints (input ++ [c]) with
        | .exact index _ =>
          { new_state := .pendingActivation index (input ++ [c])
              ((TimeoutTracker.new config.settings.activation_delay).startAt now)
            actions := [.scheduleRedraw] }
        | .ambiguous _ =>
          { new_state := .fullOverlay selected (input ++ [c]), actions := [.scheduleRedraw] }
        | .noMatch =>
          if config.has_launch_config [c] then
            { new_state := .exiting (.launch [c]), actions := [.exit] }
          else
            { new_state := .fullOverlay selected input, actions := [] }
      | none =>
        { new_state := .fullOverlay selected input, actions := [] }
  | .fullOverlay selected _, .altReleased =>
    { new_state := .exiting (.window selected), actions := [.exit] }
  | .fullOverlay selected input, .cycleForward =>
    { new_state := .fullOverlay (cycle_index selected hints.length true) input
      actions := [.scheduleRedraw] }
  | .fullOverlay selected input, .cycleBackward =>
    { new_state := .fullOverlay (cycle_index selected hints.length false) input
      actions := [.scheduleRedraw] }
  | .pendingActivation hint_index input timeout, .tick =>
    if timeout.has_elapsed now then
      { new_state := .exiting (.window hint_index), actions := [.exit] }
    else
      { new_state := .pendingActivation hint_index input timeout, actions := [] }
  | .pendingActivation hint_index input timeout, .keyPress keysym _ =>
    match keysym_to_char keysym with
    | some c =>
      match match_input hints (input ++ [c]) with
      | .exact index _ =>
        { new_state := .pendingActivation index (input ++ [c])
            ((TimeoutTracker.new config.settings.activation_delay).startAt now)
          actions := [.scheduleRedraw] }
      | .ambiguous _ =>
        { new_state := .fullOverlay hint_index (input ++ [c]), actions := [.scheduleRedraw] }
      | .noMatch =>
        { new_state := .pendingActivation hint_index input timeout, actions := [] }
    | none =>
      if keysym == keysymEscape then
        { new_state := .exiting .cancelled, actions := [.exit] }
      else if keysym == keysymBackSpace then
        { new_state := .fullOverlay hint_index input.dropLast, actions := [.scheduleRedraw] }
      else
        { new_state := .pendingActivation hint_index input timeout, actions := [] }
  | .pendingActivation hint_index _ _, .altReleased =>
    { new_state := .exiting (.window hint_index), actions := [.exit] }
  | _, _ => { new_state := s, actions := [] }

/-- The `(state, event)` pairs that no arm of `handle_event`'s match lists
and that therefore fall through to the default
`_ => Transition { new_state: self.clone(), actions: vec![] }` arm
(spec §4.4 "Default/no match for any unlisted pair"). -/
def unlisted : AppState → Event → Bool
  | .exiting _, _ => true
  | .borderOnly _ _, .configure _ _ => true
  | .fullOverlay _ _, .tick => true
  | .fullOverlay _ _, .frameCallback => true
  | .fullOverlay _ _, .configure _ _ => true
  | .pendingActivation _ _ _, .frameCallback => true
  | .pendingActivation _ _ _, .cycleForward => true
  | .pendingActivation _ _ _, .cycleBackward => true
  | .pendingActivation _ _ _, .configure _ _ => true
  | _, _ => false

/-! ## Character-level helper lemmas -/

theorem uint32_le_toNat {a b : UInt32} : a ≤ b ↔ a.toBitVec.toNat ≤ b.toBitVec.toNat := by
  simp [UInt32.le_def, BitVec.le_def]

theorem char_isDigit_iff (c : Char) : c.isDigit = true ↔ (48 ≤ c.toNat ∧ c.toNat ≤ 57) := by
  have h48 : ((48 : UInt32)).toBitVec.toNat = 48 := rfl
  have h57 : ((57 : UInt32)).toBitVec.toNat = 57 := rfl
  simp only [Char.isDigit, Bool.and_eq_true, decide_eq_true_eq, uint32_le_toNat, h48, h57,
    Char.toNat, UInt32.toNat]

theorem char_isAlpha_iff (c : Char) :
    c.isAlpha = true ↔ ((65 ≤ c.toNat ∧ c.toNat ≤ 90) ∨ (97 ≤ c.toNat ∧ c.toNat ≤ 122)) := by
  have h65 : ((65 : UInt32)).toBitVec.toNat = 65 := rfl
  have h90 : ((90 : UInt32)).toBitVec.toNat = 90 := rfl
  have h97 : ((97 : UInt32)).toBitVec.toNat = 97 := rfl
  have h122 : ((122 : UInt32)).toBitVec.toNat = 122 := rfl
  simp only [Char.isAlpha, Char.isUpper, Char.isLower, Bool.or_eq_true, Bool.and_eq_true,
    decide_eq_true_eq, uint32_le_toNat, h65, h90, h97, h122, Char.toNat, UInt32.toNat]

theorem char_toNat_ofNat_valid {n : Nat} (hv : n.isValidChar) : (Char.ofNat n).toNat = n := by
  simp [Char.ofNat, hv, Char.ofNatAux, Char.toNat, UInt32.toNat, UInt32.ofNat', BitVec.ofNat]

theorem char_eq_of_toNat_eq {a b : Char} (h : a.toNat = b.toNat) : a = b := by
  have := congrArg Char.ofNat h
  simpa using this

theorem char_toNat_toLower (c : Char) :
    c.toLower.toNat = if 65 ≤ c.toNat ∧ c.toNat ≤ 90 then c.toNat + 32 else c.toNat := by
  simp only [Char.toLower]
  split
  · next h =>
    exact char_toNat_ofNat_valid (Or.inl (by omega))
  · rfl

theorem char_toLower_of_isDigit {c : Char} (h : c.isDigit = true) : c.toLower = c := by
  rw [char_isDigit_iff] at h
  apply char_eq_of_toNat_eq
  rw [char_toNat_toLower, if_neg]
  omega

theorem char_toLower_idem (c : Char) : c.toLower.toLower = c.toLower := by
  apply char_eq_of_toNat_eq
  rw [char_toNat_toLower, char_toNat_toLower]
  split_ifs <;> omega

theorem char_isAlpha_toLower {c : Char} (h : c.isAlpha = true) : c.toLower.isAlpha = true := by
  rw [char_isAlpha_iff] at h ⊢
  rw [char_toNat_toLower]
  split <;> omega

theorem char_isDigit_toLower (c : Char) : c.toLower.isDigit = c.isDigit := by
  rcases hd : c.isDigit with _ | _
  · rcases h2 : c.toLower.isDigit with _ | _
    · rfl
    · exfalso
      rw [char_isDigit_iff, char_toNat_toLower] at h2
      have h3 : c.isDigit = true → False := by simp [hd]
      rw [char_isDigit_iff] at h3
      split at h2
      · omega
      · exact h3 ⟨h2.1, h2.2⟩
  · rw [char_toLower_of_isDigit hd, hd]

theorem char_not_isDigit_of_isAlpha {c : Char} (h : c.isAlpha = true) : c.isDigit = false := by
  rw [char_isAlpha_iff] at h
  rcases h2 : c.isDigit with _ | _
  · rfl
  · rw [char_isDigit_iff] at h2
    omega

theorem map_toLower_of_all_digit {ds : List Char} (h : ds.all Char.isDigit = true) :
    ds.map Char.toLower = ds := by
  induction ds with
  | nil => rfl
  | cons d t ih =>
    simp only [List.all_cons, Bool.and_eq_true] at h
    simp [char_toLower_of_isDigit h.1, ih h.2]

theorem map_toLower_idem (s : List Char) : (s.map Char.toLower).map Char.toLower = s.map Char.toLower := by
  rw [List.map_map]
  apply List.map_congr_left
  intro a _
  exact char_toLower_idem a

/-! ## C5 — `from_repeated` success condition and round-trip -/

/-- C5, counterexample: the round-trip half of the claim quantifies over
*every* `HintSequence` constructed via `new`, but `new` accepts any base
character while `from_repeated` only accepts ASCII-alphabetic runs: for
`seq = HintSequence::new('3', 1)` (canonical string "3"),
`from_repeated(seq.as_string())` is `None`, not `Some(seq)`. -/
theorem C5_counterexample :
    HintSequence.from_repeated ((HintSequence.new '3' 1).as_string) ≠
      some (HintSequence.new '3' 1) := by
  decide

/-- Evaluation of `from_repeated` on a non-empty input (definitional). -/
theorem from_repeated_cons (a : Char) (t : List Char) :
    HintSequence.from_repeated (a :: t) =
      (if (a.toLower).isAlpha = true then
        if (((a :: t).map Char.toLower).all (fun c => c == a.toLower)) = true then
          some (HintSequence.new a.toLower ((a :: t).map Char.toLower).length)
        else none
      else none) := rfl

/-- C5 (amended): for **ASCII** input strings — the domain on which the
per-character ASCII lowering used by this embedding coincides exactly
with Rust's `str::to_lowercase` — `HintSequence::from_repeated(s)`
returns `Some` iff `s` is a non-empty case-insensitive run of one ASCII
letter; and the round-trip `from_repeated(seq.as_string()) == Some(seq)`
holds for every `seq` constructed via `new` **with an ASCII-alphabetic
base** (its canonical string is ASCII, so no restriction is needed
there).  The ASCII hypothesis on the iff is required for fidelity to the
program, not by the model's proof: Rust's Unicode lowercasing maps e.g.
U+212A (KELVIN SIGN) to 'k', so the program returns `Some` for the
non-ASCII string "\u{212A}", which is not a run of one ASCII letter. -/
theorem C5_from_repeated_iff_and_round_trip :
    (∀ s : List Char, (∀ c ∈ s, c.toNat < 128) →
      ((HintSequence.from_repeated s).isSome = true ↔
       (s ≠ [] ∧ ∃ b : Char, b.isAlpha = true ∧
         s.map Char.toLower = List.replicate s.length b))) ∧
    (∀ (base : Char) (count : Nat), base.isAlpha = true →
       HintSequence.from_repeated (HintSequence.new base count).as_string =
         some (HintSequence.new base count)) := by
  constructor
  · intro s _hascii
    rcases s with _ | ⟨a, t⟩
    · simp [HintSequence.from_repeated]
    · rw [from_repeated_cons]
      have hlen : ((a :: t).map Char.toLower).length = (a :: t).length := by simp
      split_ifs with h1 h2
      · apply iff_of_true
        · simp
        · refine ⟨by simp, a.toLower, h1, ?_⟩
          apply List.eq_replicate_iff.mpr
          refine ⟨hlen, ?_⟩
          intro x hx
          exact eq_of_beq ((List.all_eq_true.mp h2) x hx)
      · apply iff_of_false (by simp)
        rintro ⟨-, b', hb', hrep⟩
        have hhead : a.toLower = b' := by
          have := (List.eq_replicate_iff.mp hrep).2 a.toLower (by simp)
          exact this
        apply h2
        rw [List.all_eq_true]
        intro x hx
        have := (List.eq_replicate_iff.mp hrep).2 x hx
        rw [this, hhead]
        exact beq_self_eq_true b'
      · apply iff_of_false (by simp)
        rintro ⟨-, b', hb', hrep⟩
        have hhead : a.toLower = b' := by
          have := (List.eq_replicate_iff.mp hrep).2 a.toLower (by simp)
          exact this
        rw [hhead] at h1
        exact h1 hb'
  · intro base count halpha
    have hbl : base.toLower.isAlpha = true := char_isAlpha_toLower halpha
    obtain ⟨m, hm⟩ : ∃ m, max count 1 = m + 1 := ⟨max count 1 - 1, by omega⟩
    simp only [HintSequence.new, HintSequence.as_string, hm]
    rw [List.replicate_succ, from_repeated_cons]
    rw [if_pos (by rw [char_toLower_idem]; exact hbl)]
    rw [if_pos]
    · simp only [Option.some.injEq]
      have hmap : ((base.toLower :: List.replicate m base.toLower).map Char.toLower) =
          base.toLower :: List.replicate m base.toLower := by
        simp [List.map_replicate, char_toLower_idem]
      rw [HintSequence.new, char_toLower_idem, hmap]
      simp [char_toLower_idem]
    · rw [List.all_eq_true]
      intro x hx
      simp only [List.map_cons, List.map_replicate, char_toLower_idem, List.mem_cons,
        List.mem_replicate] at hx
      rcases hx with h | h
      · simp [h, char_toLower_idem]
      · simp [h.2, char_toLower_idem]

/-- C5, witness: the iff at the ASCII string "gG" and the round trip at
`seq = HintSequence::new('g', 2)`. -/
theorem C5_witness :
    ((HintSequence.from_repeated ['g', 'G']).isSome = true ↔
       (['g', 'G'] ≠ [] ∧ ∃ b : Char, b.isAlpha = true ∧
         ['g', 'G'].map Char.toLower = List.replicate (['g', 'G'].length) b)) ∧
    HintSequence.from_repeated ((HintSequence.new 'g' 2).as_string) =
      some (HintSequence.new 'g' 2) :=
  ⟨C5_from_repeated_iff_and_round_trip.1 ['g', 'G'] (by decide),
   C5_from_repeated_iff_and_round_trip.2 'g' 2 (by decide)⟩

/-! ## C6 — `normalize_input` digit expansion -/

/-- The backward digit scan stops exactly at the boundary `k` when
position `k - 1` holds a non-digit and all positions from `k` on hold
digits. -/
theorem digit_run_start_of_boundary (l : List Char) (k : Nat) (hk : 0 < k)
    (hnd : (l.getD (k - 1) ' ').isDigit = false)
    (hdig : ∀ j, k ≤ j → j < l.length → (l.getD j ' ').isDigit = true) :
    ∀ e, k ≤ e → e < l.length → digit_run_start l e = k := by
  intro e
  induction e with
  | zero =>
    intro h1 _
    omega
  | succ m ih =>
    intro h1 h2
    rcases Nat.lt_or_ge m k with hc | hc
    · have hkm : k = m + 1 := by omega
      subst hkm
      have hcon : ¬ ((l.getD m ' ').isDigit = true) := by
        rw [Nat.add_sub_cancel] at hnd
        rw [Bool.not_eq_true]
        exact hnd
      simp only [digit_run_start]
      rw [if_neg hcon]
    · simp only [digit_run_start]
      rw [if_pos (hdig m hc (by omega))]
      exact ih hc (by omega)

/-- Full evaluation of `normalize_input` on a letter run followed by a
digit run: expansion to `replicate num` when the parsed value is in
`1..=26`, otherwise the lowercased input unchanged. -/
theorem normalize_letter_digit_run (c : Char) (k num : Nat) (ds : List Char)
    (halpha : c.isAlpha = true) (hk : 1 ≤ k) (hparse : parse_nat ds = some num) :
    normalize_input (List.replicate k c ++ ds) =
      if 0 < num ∧ num ≤ 26 then List.replicate num c.toLower
      else List.replicate k c.toLower ++ ds := by
  have hds : ds ≠ [] ∧ ds.all Char.isDigit = true := by
    by_contra hcon
    rw [parse_nat, if_neg hcon] at hparse
    exact Option.noConfusion hparse
  obtain ⟨hdsne, hdsdig⟩ := hds
  have hdsl : 1 ≤ ds.length := by
    cases ds
    · exact absurd rfl hdsne
    · simp
  have hc'alpha : (c.toLower).isAlpha = true := char_isAlpha_toLower halpha
  have hc'nd : (c.toLower).isDigit = false := char_not_isDigit_of_isAlpha hc'alpha
  have hmap : (List.replicate k c ++ ds).map Char.toLower =
      List.replicate k c.toLower ++ ds := by
    rw [List.map_append, List.map_replicate, map_toLower_of_all_digit hdsdig]
  have hreplen : (List.replicate k c.toLower).length = k := List.length_replicate k _
  have hlen : (List.replicate k c.toLower ++ ds).length = k + ds.length := by
    simp
  have hlast : ((List.replicate k c.toLower ++ ds).getD
      ((List.replicate k c.toLower ++ ds).length - 1) ' ').isDigit = true := by
    rw [hlen, List.getD_append_right _ _ _ _ (by omega)]
    rw [List.getD_eq_getElem _ _ (by omega)]
    exact List.all_eq_true.mp hdsdig _ (List.getElem_mem _)
  have hscan : digit_run_start (List.replicate k c.toLower ++ ds)
      ((List.replicate k c.toLower ++ ds).length - 1) = k := by
    apply digit_run_start_of_boundary _ k hk
    · rw [List.getD_append _ _ _ _ (by omega)]
      rw [List.getD_eq_getElem _ _ (by simp; omega)]
      simpa using hc'nd
    · intro j hj1 hj2
      rw [List.getD_append_right _ _ _ _ (by omega)]
      rw [hlen] at hj2
      rw [List.getD_eq_getElem _ _ (by simp; omega)]
      exact List.all_eq_true.mp hdsdig _ (List.getElem_mem _)
    · omega
    · omega
  have hhead : (List.replicate k c.toLower).head? = some c.toLower := by
    obtain ⟨k', rfl⟩ : ∃ k', k = k' + 1 := ⟨k - 1, by omega⟩
    rw [List.replicate_succ]
    rfl
  have hall : ((List.replicate k c.toLower).all fun x => x == c.toLower) = true := by
    rw [List.all_eq_true]
    intro x hx
    rw [List.mem_replicate] at hx
    simp [hx.2]
  rw [normalize_input, hmap, norm_core]
  rw [if_pos (by omega : 2 ≤ (List.replicate k c.toLower ++ ds).length)]
  rw [if_pos hlast]
  simp only [hscan]
  rw [if_pos (show 0 < k by omega)]
  rw [List.take_left' hreplen, List.drop_left' hreplen]
  rw [hparse, hhead]
  dsimp only
  by_cases hnum : 0 < num ∧ num ≤ 26
  · rw [if_pos ⟨hnum.1, hnum.2, hall⟩, if_pos hnum]
  · rw [if_neg (fun hc => hnum ⟨hc.1, hc.2.1⟩), if_neg hnum]

/-- C6: `normalize_input` expands a trailing digit run on a run of a
single (ASCII-alphabetic) letter into that letter repeated the parsed
value's number of times exactly when the value is in `1..=26`: the first
conjunct proves the expansion for `1 ≤ num ≤ 26`, the second proves the
cap that bounds expansion — a digit value of 0 or above 26 leaves the
(lowercased) input unexpanded — and the third that normalization
lowercases its input first, making it case-insensitive. -/
theorem C6_normalize_input_digit_expansion :
    (∀ (c : Char) (k num : Nat) (ds : List Char),
       c.isAlpha = true → 1 ≤ k →
       parse_nat ds = some num → 1 ≤ num → num ≤ 26 →
       normalize_input (List.replicate k c ++ ds) = List.replicate num c.toLower) ∧
    (∀ (c : Char) (k num : Nat) (ds : List Char),
       c.isAlpha = true → 1 ≤ k →
       parse_nat ds = some num → (num = 0 ∨ 26 < num) →
       normalize_input (List.replicate k c ++ ds) = List.replicate k c.toLower ++ ds) ∧
    (∀ s : List Char, normalize_input (s.map Char.toLower) = normalize_input s) := by
  refine ⟨?_, ?_, ?_⟩
  · intro c k num ds halpha hk hparse hnum1 hnum26
    rw [normalize_letter_digit_run c k num ds halpha hk hparse,
      if_pos ⟨by omega, hnum26⟩]
  · intro c k num ds halpha hk hparse hout
    rw [normalize_letter_digit_run c k num ds halpha hk hparse, if_neg (by omega)]
  · intro s
    rw [normalize_input, normalize_input, map_toLower_idem]

/-- C6, witness: `normalize_input "g2" = "gg"` (expansion), while
`normalize_input "g27" = "g27"` and `normalize_input "g0" = "g0"` (digit
value above the 26 cap, and 0, are not expanded), via the theorem at
concrete inputs. -/
theorem C6_witness :
    parse_nat ['2'] = some 2 ∧
    normalize_input ['g', '2'] = ['g', 'g'] ∧
    normalize_input ['g', '2', '7'] = ['g', '2', '7'] ∧
    normalize_input ['g', '0'] = ['g', '0'] :=
  ⟨by decide,
   (C6_normalize_input_digit_expansion.1 'g' 1 2 ['2'] (by decide) (by decide)
     (by decide) (by decide) (by decide)).trans (by decide),
   (C6_normalize_input_digit_expansion.2.1 'g' 1 27 ['2', '7'] (by decide) (by decide)
     (by decide) (Or.inr (by decide))).trans (by decide),
   (C6_normalize_input_digit_expansion.2.1 'g' 1 0 ['0'] (by decide) (by decide)
     (by decide) (Or.inl rfl)).trans (by decide)⟩

/-! ## C1 / C9 — the candidate set collected by `match_input` -/

/-- C1, counterexample: with the single hint "gg" and input "g", the hint
*is* collected by `match_input` (the sole candidate, hence `Exact`),
although its canonical string "gg" is **not** a prefix of the normalized
input "g" — the code collects hints whose canonical string starts with
the normalized input, the reverse direction of the claim. -/
theorem C1_counterexample :
    matched_hints [⟨HintSequence.new 'g' 2, ['w'], ['g'], [], 0⟩] ['g'] =
      [⟨HintSequence.new 'g' 2, ['w'], ['g'], [], 0⟩] ∧
    ((HintSequence.new 'g' 2).as_string).isPrefixOf (normalize_input ['g']) = false := by
  decide

/-- C1 (amended): for every hint list and non-empty input, the candidate
set collected by `match_input` (whose count then decides
`None`/`Exact`/`Partial`) is exactly the set of hints whose canonical
string **has the normalized input as a prefix**. -/
theorem C1_matched_hints_iff :
    ∀ (hints : List WindowHint) (input : List Char) (h : WindowHint),
      input ≠ [] →
      (h ∈ matched_hints hints input ↔
        h ∈ hints ∧ (normalize_input input).isPrefixOf h.hint.as_string = true) := by
  intro hints input h _
  rw [matched_hints, List.mem_filter]
  exact Iff.rfl

/-- C1, witness at a concrete input: hint "g", input "g". -/
theorem C1_witness :
    (⟨HintSequence.new 'g' 1, ['w'], ['g'], [], 0⟩ : WindowHint) ∈
        matched_hints [⟨HintSequence.new 'g' 1, ['w'], ['g'], [], 0⟩] ['g'] ↔
      ((⟨HintSequence.new 'g' 1, ['w'], ['g'], [], 0⟩ : WindowHint) ∈
          [(⟨HintSequence.new 'g' 1, ['w'], ['g'], [], 0⟩ : WindowHint)] ∧
        (normalize_input ['g']).isPrefixOf (HintSequence.new 'g' 1).as_string = true) :=
  C1_matched_hints_iff [⟨HintSequence.new 'g' 1, ['w'], ['g'], [], 0⟩] ['g']
    ⟨HintSequence.new 'g' 1, ['w'], ['g'], [], 0⟩ (by decide)

/-- C9: if exactly one hint's canonical string has the (non-empty)
normalized input as a prefix, `match_input` returns `Exact` for that
hint — even when the input is strictly shorter than the hint's canonical
string, so `Exact` does not imply the typed input equals the selected
hint. -/
theorem C9_unique_candidate_exact :
    ∀ (hints : List WindowHint) (input : List Char) (h : WindowHint),
      input ≠ [] →
      hints.filter (fun x => (normalize_input input).isPrefixOf x.hint.as_string) = [h] →
      match_input hints input = MatchResult.exact h.index h.window_id := by
  intro hints input h hne hfilter
  have hm : matched_hints hints input = [h] := hfilter
  unfold match_input
  rw [if_neg hne, hm]

/-- C9, witness: the single hint "ff" with input "f" yields
`Exact{index 1}` although the normalized input differs from the hint's
canonical string. -/
theorem C9_witness :
    match_input [⟨HintSequence.new 'f' 2, ['w','2'], ['f'], [], 1⟩] ['f'] =
        MatchResult.exact 1 ['w','2'] ∧
      normalize_input ['f'] ≠ (HintSequence.new 'f' 2).as_string :=
  ⟨C9_unique_candidate_exact [⟨HintSequence.new 'f' 2, ['w','2'], ['f'], [], 1⟩] ['f']
      ⟨HintSequence.new 'f' 2, ['w','2'], ['f'], [], 1⟩ (by decide) (by decide),
    by decide⟩

/-! ## C2 — BorderOnly × AltReleased -/

/-- C2, counterexample: at elapsed 50 < threshold 250, with an **empty**
hint list and a previous id that does not resolve, the code exits with
`Window(0)` — the claim's "hint list non-empty" proviso would demand
`QuickSwitch` here.  The code never consults the hint list's emptiness:
it returns `Window(0)` whenever a previous id was supplied but did not
resolve, and `QuickSwitch` exactly when no previous id was supplied. -/
theorem C2_counterexample :
    handle_event (.borderOnly 0 0) .altReleased ⟨⟨500, 200, 250⟩, fun _ => false⟩ []
        (some ['w']) 50 =
      { new_state := .exiting (.window 0), actions := [.exit] } ∧
    ActivationResult.window 0 ≠ ActivationResult.quickSwitch := by
  constructor
  · rfl
  · decide

/-- C2 (amended): in `BorderOnly`, on `AltReleased`: if elapsed <
`quick_switch_threshold` the machine exits with `Window(idx)` when
`previous_window_id` resolves to a hint, with `Window(0)` when a previous
id was supplied but did not resolve (regardless of the hint list), and
with `QuickSwitch` when no previous id was supplied; at or above the
threshold it exits with `Window(0)`; in all cases the new state is
`Exiting` and the action list is `[Exit]`.  The second conjunct is the
spec's concrete scenario (threshold 250, elapsed 100, previous id at
index 1 ⇒ `Window(1)`). -/
theorem C2_border_alt_released :
    (∀ (start_time frame_count now : Nat) (config : Config)
       (hints : List WindowHint) (previous_window_id : Option (List Char)),
      handle_event (.borderOnly start_time frame_count) .altReleased config hints
          previous_window_id now =
        { new_state := AppState.exiting (
            if now - start_time < config.settings.quick_switch_threshold then
              match previous_window_id with
              | some prev =>
                match hints.findIdx? (fun h => h.window_id == prev) with
                | some idx => ActivationResult.window idx
                | none => ActivationResult.window 0
              | none => ActivationResult.quickSwitch
            else ActivationResult.window 0)
          actions := [Action.exit] }) ∧
    handle_event (.borderOnly 0 0) .altReleased ⟨⟨500, 200, 250⟩, fun _ => false⟩
        [⟨HintSequence.new 'e' 1, ['e'], ['e'], [], 0⟩,
         ⟨HintSequence.new 'f' 1, ['f'], ['f'], [], 1⟩]
        (some ['f']) 100 =
      { new_state := .exiting (.window 1), actions := [.exit] } := by
  constructor
  · intro start_time frame_count now config hints previous_window_id
    rfl
  · rfl

/-! ## C4 — unlisted pairs are identity transitions -/

/-- C4: for every `(state, event)` pair not listed in the transition
table — in particular every pair whose state is `Exiting` — `handle_event`
returns a value-equal copy of the input state and an empty action list;
the transition function is total and never leaves `Exiting`. -/
theorem C4_unlisted_identity :
    ∀ (s : AppState) (event : Event) (config : Config) (hints : List WindowHint)
      (previous_window_id : Option (List Char)) (now : Nat),
      unlisted s event = true →
      handle_event s event config hints previous_window_id now =
        { new_state := s, actions := [] } := by
  intro s event config hints previous_window_id now hu
  cases s <;> cases event <;> simp_all [unlisted, handle_event]

/-- C4, witness: `Exiting{Cancelled}` with a `Tick` is an identity
transition with no actions. -/
theorem C4_witness :
    handle_event (.exiting .cancelled) .tick ⟨⟨500, 200, 250⟩, fun _ => false⟩ [] none 0 =
      { new_state := .exiting .cancelled, actions := [] } :=
  C4_unlisted_identity (.exiting .cancelled) .tick ⟨⟨500, 200, 250⟩, fun _ => false⟩ [] none 0
    (by decide)

/-! ## C7 — BorderOnly × Tick gate -/

/-- C7: in `BorderOnly`, a `Tick` transitions to `FullOverlay` (selected
index = resolved previous window, else 0; empty input; `ScheduleRedraw`)
exactly when `overlay_delay` has elapsed **and** `frame_count ≥ 2`;
otherwise (second conjunct: even after the delay, with `frame_count = 1`)
the state is returned unchanged with no actions. -/
theorem C7_border_tick_gate :
    (∀ (start_time frame_count now : Nat) (config : Config)
       (hints : List WindowHint) (previous_window_id : Option (List Char)),
      handle_event (.borderOnly start_time frame_count) .tick config hints
          previous_window_id now =
        if config.settings.overlay_delay ≤ now - start_time ∧ 2 ≤ frame_count then
          { new_state := AppState.fullOverlay (previous_index hints previous_window_id) []
            actions := [Action.scheduleRedraw] }
        else
          { new_state := AppState.borderOnly start_time frame_count, actions := [] }) ∧
    (∀ (start_time now : Nat) (config : Config) (hints : List WindowHint)
       (previous_window_id : Option (List Char)),
      handle_event (.borderOnly start_time 1) .tick config hints previous_window_id now =
        { new_state := AppState.borderOnly start_time 1, actions := [] }) := by
  constructor
  · intro start_time frame_count now config hints previous_window_id
    rfl
  · intro start_time now config hints previous_window_id
    simp only [handle_event]
    rw [if_neg]
    rintro ⟨-, h⟩
    omega

/-! ## C8 — FullOverlay silent revert vs BorderOnly redraw -/

/-- C8: in `FullOverlay`, a printable key whose appended input yields
`MatchResult::None` with no launch config for the character is silently
reverted: previous input, previous selection, **empty** action list (no
`ScheduleRedraw`).  The first conjunct needs only that the *appended*
input matches nothing (the single character on its own may well match);
the second conjunct shows `BorderOnly`'s equivalent branch (where the
matched input is the single character) instead resets to
`FullOverlay{0, ""}` **with** `ScheduleRedraw`. -/
theorem C8_fullOverlay_silent_revert :
    ∀ (selected : Nat) (input : List Char) (keysym : Nat) (shift : Bool)
      (config : Config) (hints : List WindowHint)
      (previous_window_id : Option (List Char)) (now : Nat) (c : Char)
      (start_time frame_count : Nat),
      keysym_to_char keysym = some c →
      config.has_launch_config [c] = false →
      (match_input hints (input ++ [c]) = MatchResult.noMatch →
        handle_event (.fullOverlay selected input) (.keyPress keysym shift) config hints
            previous_window_id now =
          { new_state := AppState.fullOverlay selected input, actions := [] }) ∧
      (match_input hints [c] = MatchResult.noMatch →
        handle_event (.borderOnly start_time frame_count) (.keyPress keysym shift) config
            hints previous_window_id now =
          { new_state := AppState.fullOverlay 0 [], actions := [Action.scheduleRedraw] }) := by
  intro selected input keysym shift config hints previous_window_id now c
    start_time frame_count hchar hlaunch
  have hrange : 0x20 ≤ keysym ∧ keysym ≤ 0x7e := by
    by_contra hcon
    rw [keysym_to_char, if_neg hcon] at hchar
    exact Option.noConfusion hchar
  have htab : is_tab keysym = false := by
    simp only [is_tab, keysymTab, keysymISOLeftTab, Bool.or_eq_false_iff,
      beq_eq_false_iff_ne, ne_eq]
    omega
  have hdown : (keysym == keysymDown || keysym == keysymKPDown) = false := by
    simp only [keysymDown, keysymKPDown, Bool.or_eq_false_iff, beq_eq_false_iff_ne, ne_eq]
    omega
  have hup : (keysym == keysymUp || keysym == keysymKPUp) = false := by
    simp only [keysymUp, keysymKPUp, Bool.or_eq_false_iff, beq_eq_false_iff_ne, ne_eq]
    omega
  have hret : (keysym == keysymReturn || keysym == keysymKPEnter) = false := by
    simp only [keysymReturn, keysymKPEnter, Bool.or_eq_false_iff, beq_eq_false_iff_ne, ne_eq]
    omega
  have hesc : (keysym == keysymEscape) = false := by
    simp only [keysymEscape, beq_eq_false_iff_ne, ne_eq]
    omega
  have hbs : (keysym == keysymBackSpace) = false := by
    simp only [keysymBackSpace, beq_eq_false_iff_ne, ne_eq]
    omega
  constructor
  · intro hmatch
    simp only [handle_event, htab, hdown, hup, hret, hesc, hbs, Bool.false_eq_true,
      if_false, hchar, hmatch, hlaunch]
  · intro hmatch1
    simp only [handle_event, htab, hesc, Bool.false_eq_true, if_false, hchar,
      hmatch1, hlaunch]

/-- C8, witness: with hint list `["g"]` and overlay input "x", the key
`'g'` (0x67) appends to "xg", which matches nothing — the keystroke is
reverted with no actions even though `'g'` alone would match; and the
non-matching key `'q'` (0x71) in `BorderOnly` resets with a redraw. -/
theorem C8_witness :
    (handle_event (.fullOverlay 0 ['x']) (.keyPress 0x67 false)
        ⟨⟨500, 200, 250⟩, fun _ => false⟩
        [⟨HintSequence.new 'g' 1, ['w'], ['g'], [], 0⟩] none 0 =
      { new_state := AppState.fullOverlay 0 ['x'], actions := [] }) ∧
    (handle_event (.borderOnly 0 0) (.keyPress 0x71 false)
        ⟨⟨500, 200, 250⟩, fun _ => false⟩
        [⟨HintSequence.new 'g' 1, ['w'], ['g'], [], 0⟩] none 0 =
      { new_state := AppState.fullOverlay 0 [], actions := [Action.scheduleRedraw] }) :=
  ⟨(C8_fullOverlay_silent_revert 0 ['x'] 0x67 false ⟨⟨500, 200, 250⟩, fun _ => false⟩
      [⟨HintSequence.new 'g' 1, ['w'], ['g'], [], 0⟩] none 0 'g' 0 0
      (by decide) (by decide)).1 (by decide),
   (C8_fullOverlay_silent_revert 0 [] 0x71 false ⟨⟨500, 200, 250⟩, fun _ => false⟩
      [⟨HintSequence.new 'g' 1, ['w'], ['g'], [], 0⟩] none 0 'q' 0 0
      (by decide) (by decide)).2 (by decide)⟩

/-! ## C10 — shape of the action list -/

/-- C10: from every non-`Exiting` state, for every event, the action list
returned by `handle_event` is exactly `[]`, `[ScheduleRedraw]`, or
`[Exit]`, and it is `[Exit]` if and only if the returned state is
`Exiting`. -/
theorem C10_actions_shape :
    ∀ (s : AppState) (event : Event) (config : Config) (hints : List WindowHint)
      (previous_window_id : Option (List Char)) (now : Nat),
      s.is_exiting = false →
      ((handle_event s event config hints previous_window_id now).actions = [] ∨
        (handle_event s event config hints previous_window_id now).actions =
          [Action.scheduleRedraw] ∨
        (handle_event s event config hints previous_window_id now).actions =
          [Action.exit]) ∧
      ((handle_event s event config hints previous_window_id now).actions =
          [Action.exit] ↔
        (handle_event s event config hints previous_window_id now).new_state.is_exiting =
          true) := by
  intro s event config hints previous_window_id now hne
  cases s <;> cases event <;>
    simp_all only [handle_event, AppState.is_exiting] <;>
    (repeat' split) <;>
    simp_all [AppState.is_exiting]

/-- C10, witness: a `Tick` in `BorderOnly` produces one of the three
action lists and satisfies the `[Exit] ↔ Exiting` equivalence. -/
theorem C10_witness :
    (handle_event (.borderOnly 0 0) .tick ⟨⟨500, 200, 250⟩, fun _ => false⟩ [] none 0).actions
        = [] ∨
      (handle_event (.borderOnly 0 0) .tick ⟨⟨500, 200, 250⟩, fun _ => false⟩ [] none
            0).actions = [Action.scheduleRedraw] ∨
      (handle_event (.borderOnly 0 0) .tick ⟨⟨500, 200, 250⟩, fun _ => false⟩ [] none
            0).actions = [Action.exit] :=
  (C10_actions_shape (.borderOnly 0 0) .tick ⟨⟨500, 200, 250⟩, fun _ => false⟩ [] none 0
    (by decide)).1

/-! ## C3 — hint assignment -/

theorem enum_concat {α : Type} (l : List α) (x : α) :
    (l ++ [x]).enum = l.enum ++ [(l.length, x)] := by
  rw [List.enum_append]
  rfl

theorem add_to_group_nil (b : Char) (e : Nat × Window) :
    add_to_group [] b e = [(b, [e])] := rfl

theorem add_to_group_cons (c : Char) (l : List (Nat × Window))
    (rest : List (Char × List (Nat × Window))) (b : Char) (e : Nat × Window) :
    add_to_group ((c, l) :: rest) b e =
      if c = b then (c, l ++ [e]) :: rest else (c, l) :: add_to_group rest b e := rfl

theorem group_of_add_same (gs : List (Char × List (Nat × Window))) (b : Char)
    (e : Nat × Window) :
    group_of (add_to_group gs b e) b = group_of gs b ++ [e] := by
  induction gs with
  | nil => simp [add_to_group, group_of]
  | cons g rest ih =>
    obtain ⟨c, l⟩ := g
    by_cases hc : c = b
    · subst hc
      rw [add_to_group_cons, if_pos rfl]
      simp [group_of, List.find?_cons]
    · rw [add_to_group_cons, if_neg hc]
      simp only [group_of, List.find?_cons]
      have hcb : (c == b) = false := by simp [hc]
      simp only [hcb]
      exact ih

theorem group_of_add_other (gs : List (Char × List (Nat × Window))) (b b' : Char)
    (e : Nat × Window) (hne : b' ≠ b) :
    group_of (add_to_group gs b e) b' = group_of gs b' := by
  induction gs with
  | nil =>
    have hbb : (b == b') = false := by simp [Ne.symm hne]
    simp [add_to_group_nil, group_of, List.find?_cons, hbb]
  | cons g rest ih =>
    obtain ⟨c, l⟩ := g
    by_cases hc : c = b
    · subst hc
      have hcb : (c == b') = false := by simp [Ne.symm hne]
      rw [add_to_group_cons, if_pos rfl]
      simp [group_of, List.find?_cons, hcb]
    · rw [add_to_group_cons, if_neg hc]
      simp only [group_of, List.find?_cons]
      cases hcb : (c == b') with
      | true => rfl
      | false => exact ih

theorem grouped_hints_add (gs : List (Char × List (Nat × Window))) (b : Char)
    (e : Nat × Window) :
    (grouped_hints (add_to_group gs b e)).Perm
      (grouped_hints gs ++ [hint_of_entry b (group_of gs b).length e]) := by
  induction gs with
  | nil =>
    simp [add_to_group, grouped_hints, group_of]
  | cons g rest ih =>
    obtain ⟨c, l⟩ := g
    by_cases hc : c = b
    · subst hc
      rw [add_to_group_cons, if_pos rfl]
      simp only [grouped_hints, List.flatMap_cons]
      rw [enum_concat, List.map_append]
      have hgroup : group_of ((c, l) :: rest) c = l := by
        simp [group_of, List.find?_cons]
      rw [hgroup]
      rw [List.append_assoc, List.append_assoc]
      apply List.Perm.append_left
      exact List.perm_append_comm
    · rw [add_to_group_cons, if_neg hc]
      simp only [grouped_hints, List.flatMap_cons]
      have hgroup : group_of ((c, l) :: rest) b = group_of rest b := by
        have hcb : (c == b) = false := by simp [hc]
        simp [group_of, List.find?_cons, hcb]
      rw [hgroup, List.append_assoc]
      exact List.Perm.append_left _ ih

theorem group_by_base_concat (ws : List Window) (w : Window)
    (key_for_app : List Char → Option Char) :
    group_by_base (ws ++ [w]) key_for_app =
      add_to_group (group_by_base ws key_for_app) (base_for key_for_app w)
        (ws.length, w) := by
  rw [group_by_base, group_by_base, enum_concat, List.foldl_append]
  rfl

theorem group_of_group_by_base (ws : List Window) (key_for_app : List Char → Option Char)
    (b : Char) :
    (group_of (group_by_base ws key_for_app) b).length =
      ws.countP (fun w => base_for key_for_app w == b) := by
  induction ws using List.reverseRecOn with
  | nil => rfl
  | append_singleton ws w ih =>
    rw [group_by_base_concat, List.countP_append]
    by_cases hb : base_for key_for_app w = b
    · rw [hb, group_of_add_same, List.length_append, ih]
      simp [List.countP_cons, hb]
    · rw [group_of_add_other _ _ _ _ (fun h => hb h.symm), ih]
      have : (base_for key_for_app w == b) = false := by simp [hb]
      simp [List.countP_cons, this]

theorem direct_assign_concat (ws : List Window) (w : Window)
    (key_for_app : List Char → Option Char) :
    direct_assign (ws ++ [w]) key_for_app =
      direct_assign ws key_for_app ++
        [hint_of_entry (base_for key_for_app w)
          (ws.countP fun w' => base_for key_for_app w' == base_for key_for_app w)
          (ws.length, w)] := by
  simp only [direct_assign]
  rw [enum_concat, List.map_append]
  congr 1
  · apply List.map_congr_left
    intro iw hiw
    have hi : iw.1 < ws.length := by
      have := List.mem_enum_iff_getElem?.mp hiw
      exact (List.getElem?_eq_some.mp this).1
    rw [List.take_append_of_le_length (Nat.le_of_lt hi)]
  · simp only [List.map_cons, List.map_nil]
    rw [List.take_append_of_le_length (Nat.le_refl _), List.take_length]
    rfl

theorem direct_assign_sorted (ws : List Window) (key_for_app : List Char → Option Char) :
    List.Sorted index_lt (direct_assign ws key_for_app) := by
  rw [List.Sorted, List.pairwise_iff_getElem]
  intro i j hi hj hij
  have hlen : (direct_assign ws key_for_app).length = ws.length := by
    simp [direct_assign]
  have hidx : ∀ (m : Nat) (hm : m < (direct_assign ws key_for_app).length),
      ((direct_assign ws key_for_app)[m]).index = m := by
    intro m hm
    simp only [direct_assign] at hm ⊢
    rw [List.getElem_map]
    rw [List.getElem_enum]
  unfold index_lt
  rw [hidx i hi, hidx j hj]
  exact hij

theorem grouped_group_by_perm (ws : List Window) (key_for_app : List Char → Option Char) :
    (grouped_hints (group_by_base ws key_for_app)).Perm (direct_assign ws key_for_app) := by
  induction ws using List.reverseRecOn with
  | nil => rfl
  | append_singleton ws w ih =>
    rw [group_by_base_concat]
    refine (grouped_hints_add _ _ _).trans ?_
    rw [group_of_group_by_base]
    rw [direct_assign_concat]
    exact List.Perm.append ih (List.Perm.refl _)

/-- C3: `HintAssignment::assign` produces exactly one `WindowHint` per
window, each carrying its original position as `index`, ordered by that
index; the base letter is `key_for_app(app_id)`, else the first
ASCII-alphabetic character of the lowercased last dot-segment of the app
id, else `'x'` (`base_for`); and the `n`-th window (1-indexed, in
original order) with a given base letter receives the hint sequence built
from that base with count `n` (`direct_assign` spells this out: the
`i`-th element is built from window `i` with count
`(windows.take i).countP (same base) + 1`). -/
theorem C3_assign_eq_direct (windows : List Window)
    (key_for_app : List Char → Option Char) :
    assign windows key_for_app = direct_assign windows key_for_app := by
  have hperm : (assign windows key_for_app).Perm (direct_assign windows key_for_app) :=
    (List.perm_insertionSort index_le _).trans (grouped_group_by_perm windows key_for_app)
  have hsorted_le : List.Sorted index_le (assign windows key_for_app) :=
    List.sorted_insertionSort index_le _
  have hsorted_lt_direct : List.Sorted index_lt (direct_assign windows key_for_app) :=
    direct_assign_sorted windows key_for_app
  have hne_direct : (direct_assign windows key_for_app).Pairwise
      (fun a b => a.index ≠ b.index) :=
    hsorted_lt_direct.imp (fun h => Nat.ne_of_lt h)
  have hne : (assign windows key_for_app).Pairwise (fun a b => a.index ≠ b.index) :=
    (hperm.pairwise_iff (fun h => Ne.symm h)).mpr hne_direct
  have hsorted_lt : List.Sorted index_lt (assign windows key_for_app) :=
    (List.Pairwise.and hsorted_le hne).imp (fun h => Nat.lt_of_le_of_ne h.1 h.2)
  exact List.eq_of_perm_of_sorted hperm hsorted_lt hsorted_lt_direct

end OpenSesame
